import Mathlib

set_option maxHeartbeats 1000000

/-!
Verification of the cloverleaf embedding-propagation core.

All definitions are shallow embeddings of the Rust sources under `src/`: `src/algos/ep.rs`, `src/algos/ep/model.rs`,
`src/algos/ep/optimizer.rs` and `src/vocab.rs`.  `f32` values are modelled as
real numbers where only their arithmetic matters (rounding is not modelled) and
as the four-constructor type `F` (finite / +inf / -inf / NaN) where the code
inspects IEEE special values.  External collaborators (the `simple_grad`
differentiation engine, the `rand` sampler) are modelled from the spec where
noted.
-/

namespace Cloverleaf

/-- Embeds `euclidean_distance` of `src/algos/ep.rs` lines 279-281:
`(e1 - e2).pow(2f32).sum().pow(0.5)`.  The engine's subtraction is elementwise
over the value vectors; `pow(0.5)` of the nonnegative sum of squares is the real
square root. -/
noncomputable def euclidean_distance (e1 e2 : List ℝ) : ℝ :=
  Real.sqrt (((List.zipWith (fun a b => a - b) e1 e2).map (fun x => x ^ 2)).sum)

/-- Embeds `margin_loss` of `src/algos/ep.rs` lines 283-287:
`(gamma + d1 - d2).maximum(0f32)` with `d1 = euclidean_distance(thv, hv)` and
`d2 = euclidean_distance(thv, hu)`. -/
noncomputable def margin_loss (thv hv hu : List ℝ) (gamma : ℝ) : ℝ :=
  max (gamma + euclidean_distance thv hv - euclidean_distance thv hu) 0

/-- Claim C1: `margin_loss(thv, hv, hu, gamma)` equals
`max(0, gamma + d(thv,hv) - d(thv,hu))` with `d` the Euclidean norm of the
vector difference; the loss is `0` whenever `d(thv,hv) + gamma <= d(thv,hu)`,
is `> 0` otherwise, and for fixed distances is non-decreasing in `gamma`. -/
theorem C1_margin_loss_spec (thv hv hu : List ℝ) (gamma : ℝ) :
    margin_loss thv hv hu gamma
        = max 0 (gamma + euclidean_distance thv hv - euclidean_distance thv hu)
    ∧ (euclidean_distance thv hv + gamma ≤ euclidean_distance thv hu →
        margin_loss thv hv hu gamma = 0)
    ∧ (euclidean_distance thv hu < euclidean_distance thv hv + gamma →
        0 < margin_loss thv hv hu gamma)
    ∧ (∀ gamma2 : ℝ, gamma ≤ gamma2 →
        margin_loss thv hv hu gamma ≤ margin_loss thv hv hu gamma2) := by
  refine ⟨max_comm _ _, fun h => ?_, fun h => ?_, fun gamma2 h => ?_⟩
  · exact max_eq_right (by linarith)
  · exact lt_of_lt_of_le (by linarith) (le_max_left _ _)
  · exact max_le_max (by linarith) le_rfl

/-- Witness for C1 at concrete input: the reconstruction coincides with the
direct embedding (distance 0), the negative is at distance 5, and the margin is
1, so the loss is 0. -/
theorem C1_margin_loss_spec_witness :
    margin_loss [0, 0] [0, 0] [3, 4] 1 = 0 := by
  have hd1 : euclidean_distance [0, 0] [0, 0] = 0 := by
    simp [euclidean_distance]
  have hd2 : euclidean_distance [0, 0] [3, 4] = 5 := by
    have h25 : (((0:ℝ) - 3) ^ 2 + (((0:ℝ) - 4) ^ 2 + 0)) = 5 ^ 2 := by norm_num
    simp only [euclidean_distance, List.zipWith, List.map, List.sum_cons,
      List.sum_nil, h25]
    exact Real.sqrt_sq (by norm_num)
  exact (C1_margin_loss_spec [0, 0] [0, 0] [3, 4] 1).2.1 (by rw [hd1, hd2]; norm_num)

/-- Model of an `f32` value as inspected by the NaN-guarding code: an exact
real number or one of the IEEE special values.  Rounding, overflow of finite
results and signed zeros are not modelled; finite arithmetic is exact. -/
inductive F where
  | finite (x : ℝ) : F
  | inf : F
  | neginf : F
  | nan : F

/-- IEEE `is_nan`: true exactly on NaN. -/
def F.isNan : F → Bool
  | .nan => true
  | _ => false

/-- IEEE `is_finite`: true exactly on finite values (infinities and NaN are not
finite). -/
def F.isFinite : F → Bool
  | .finite _ => true
  | _ => false

/-- IEEE negation. -/
def F.neg : F → F
  | .finite x => .finite (-x)
  | .inf => .neginf
  | .neginf => .inf
  | .nan => .nan

/-- IEEE addition: finite values add exactly, an infinity absorbs finite
values, opposite infinities give NaN, NaN propagates. -/
def F.add : F → F → F
  | .finite x, .finite y => .finite (x + y)
  | .finite _, .inf => .inf
  | .inf, .finite _ => .inf
  | .inf, .inf => .inf
  | .finite _, .neginf => .neginf
  | .neginf, .finite _ => .neginf
  | .neginf, .neginf => .neginf
  | .inf, .neginf => .nan
  | .neginf, .inf => .nan
  | _, _ => .nan

/-- IEEE multiplication: finite values multiply exactly, an infinity times a
nonzero finite value keeps the sign rule, zero times an infinity is NaN, NaN
propagates. -/
noncomputable def F.mul : F → F → F
  | .finite x, .finite y => .finite (x * y)
  | .finite x, .inf => if 0 < x then .inf else if x < 0 then .neginf else .nan
  | .inf, .finite y => if 0 < y then .inf else if y < 0 then .neginf else .nan
  | .finite x, .neginf => if 0 < x then .neginf else if x < 0 then .inf else .nan
  | .neginf, .finite y => if 0 < y then .neginf else if y < 0 then .inf else .nan
  | .inf, .inf => .inf
  | .neginf, .neginf => .inf
  | .inf, .neginf => .neginf
  | .neginf, .inf => .neginf
  | _, _ => .nan

/-- IEEE subtraction, as addition of the negation. -/
def F.sub (a b : F) : F := F.add a (F.neg b)

/-- IEEE division (signed zero is not modelled: division of a nonzero finite
value by finite zero uses the positive-zero rules). -/
noncomputable def F.div : F → F → F
  | .finite x, .finite y =>
      if y = 0 then (if x = 0 then .nan else if 0 < x then .inf else .neginf)
      else .finite (x / y)
  | .finite _, .inf => .finite 0
  | .finite _, .neginf => .finite 0
  | .inf, .finite y => if 0 ≤ y then .inf else .neginf
  | .neginf, .finite y => if 0 ≤ y then .neginf else .inf
  | _, _ => .nan

/-- IEEE square root (`f32::sqrt`): NaN on negative inputs. -/
noncomputable def F.sqrt : F → F
  | .finite x => if x < 0 then .nan else .finite (Real.sqrt x)
  | .inf => .inf
  | _ => .nan

/-- Replacement of one row of an embedding table.  A table (spec section 3, raw
embedding storage collaborator) is modelled as the function from row index to
row; `get_embedding_mut_hogwild` followed by the in-place writes of one update
is the functional replacement of that row. -/
def updRow (tbl : ℕ → List F) (f : ℕ) (row : List F) : ℕ → List F :=
  fun i => if i = f then row else tbl i

/-- Embeds the per-coordinate body of `MomentumOptimizer::update`
(`src/algos/ep/optimizer.rs` lines 47-50): iterate over the zipped embedding,
momentum and gradient rows (stopping at the shortest, as `zip` does), setting
`mi = gamma*mi + gi` then `ei = ei - alpha*mi`; coordinates past the zip keep
their old values.  Returns the new embedding row and the new momentum row. -/
noncomputable def momRow (gamma alpha : ℝ) : List F → List F → List F → List F × List F
  | ei :: es, mi :: ms, gi :: gs =>
      let mi2 := F.add (F.mul (F.finite gamma) mi) gi
      let ei2 := F.sub ei (F.mul (F.finite alpha) mi2)
      let rest := momRow gamma alpha es ms gs
      (ei2 :: rest.1, mi2 :: rest.2)
  | es, ms, _ => (es, ms)

/-- Embeds `MomentumOptimizer::update` (`src/algos/ep/optimizer.rs` lines
31-53): iterate over the entries of the gradient map (modelled as the
association list of its distinct-key entries); skip a feature when the guard
`grad.iter().all(|gi| !gi.is_nan())` fails, otherwise rewrite its embedding and
momentum rows via `momRow`. -/
noncomputable def momentumUpdate (gamma alpha : ℝ) :
    List (ℕ × List F) → (ℕ → List F) → (ℕ → List F) →
      (ℕ → List F) × (ℕ → List F)
  | [], emb, mom => (emb, mom)
  | (f, g) :: rest, emb, mom =>
      if g.all (fun gi => ! gi.isNan) then
        let rows := momRow gamma alpha (emb f) (mom f) g
        momentumUpdate gamma alpha rest (updRow emb f rows.1) (updRow mom f rows.2)
      else
        momentumUpdate gamma alpha rest emb mom

/-- Embeds the first-moment row update of `AdamOptimizer::update`
(`src/algos/ep/optimizer.rs` lines 91-94): `m_i = beta_1*m_i + (1-beta_1)*g_i`
over the zipped rows, remaining coordinates unchanged. -/
noncomputable def adamMomRow (beta1 : ℝ) (m g : List F) : List F :=
  List.zipWith
    (fun mi gi => F.add (F.mul (F.finite beta1) mi) (F.mul (F.finite (1 - beta1)) gi))
    m g ++ m.drop g.length

/-- Embeds the second-moment row update of `AdamOptimizer::update` (lines
97-100): `v_i = beta_2*v_i + (1-beta_2)*g_i.powf(2.)`, with `powf(2.)` as
squaring. -/
noncomputable def adamVarRow (beta2 : ℝ) (v g : List F) : List F :=
  List.zipWith
    (fun vi gi =>
      F.add (F.mul (F.finite beta2) vi) (F.mul (F.finite (1 - beta2)) (F.mul gi gi)))
    v g ++ v.drop g.length

/-- Embeds the embedding row update of `AdamOptimizer::update` (lines 103-109):
bias-corrected step from the already-updated moment rows; `t` is the
already-incremented float step counter and `powf` is the real power. -/
noncomputable def adamEmbRow (alpha beta1 beta2 eps t : ℝ) :
    List F → List F → List F → List F
  | ei :: es, mi :: ms, vi :: vs =>
      let mhat := F.div mi (F.finite (1 - Real.rpow beta1 t))
      let vhat := F.div vi (F.finite (1 - Real.rpow beta2 t))
      let gi := F.div mhat (F.add (F.sqrt vhat) (F.finite eps))
      F.sub ei (F.mul (F.finite alpha) gi) :: adamEmbRow alpha beta1 beta2 eps t es ms vs
  | es, _, _ => es

/-- Fold of `AdamOptimizer::update` over the gradient entries (lines 83-112):
the parallel `for_each` over the distinct keys of the map is modelled as a
sequential fold; each kept feature rewrites its first-moment, second-moment and
embedding rows in that order, the embedding row reading the updated moments. -/
noncomputable def adamFold (beta1 beta2 eps alpha t : ℝ) :
    List (ℕ × List F) → (ℕ → List F) → (ℕ → List F) → (ℕ → List F) →
      (ℕ → List F) × (ℕ → List F) × (ℕ → List F)
  | [], emb, mom, var => (emb, mom, var)
  | (f, g) :: rest, emb, mom, var =>
      if g.all (fun gi => ! gi.isNan) then
        let m2 := adamMomRow beta1 (mom f) g
        let v2 := adamVarRow beta2 (var f) g
        let e2 := adamEmbRow alpha beta1 beta2 eps t (emb f) m2 v2
        adamFold beta1 beta2 eps alpha t rest
          (updRow emb f e2) (updRow mom f m2) (updRow var f v2)
      else
        adamFold beta1 beta2 eps alpha t rest emb mom var

/-- Embeds `AdamOptimizer::update` (`src/algos/ep/optimizer.rs` lines 75-113):
`let t = t + 1.;` then the fold over the gradient map.  Returns the new
(embedding, first moment, second moment) tables. -/
noncomputable def adamUpdate (beta1 beta2 eps alpha t : ℝ) (grads : List (ℕ × List F))
    (emb mom var : ℕ → List F) :
    (ℕ → List F) × (ℕ → List F) × (ℕ → List F) :=
  adamFold beta1 beta2 eps alpha (t + 1) grads emb mom var

/-- A feature absent from the gradient map keeps its rows across a Momentum
update. -/
theorem momentumUpdate_not_mem (gamma alpha : ℝ) :
    ∀ (grads : List (ℕ × List F)) (emb mom : ℕ → List F) (f : ℕ),
      f ∉ grads.map Prod.fst →
      (momentumUpdate gamma alpha grads emb mom).1 f = emb f
        ∧ (momentumUpdate gamma alpha grads emb mom).2 f = mom f := by
  intro grads
  induction grads with
  | nil => intro emb mom f _; exact ⟨rfl, rfl⟩
  | cons hd tl ih =>
      intro emb mom f hf
      obtain ⟨k, g⟩ := hd
      have hfk : f ≠ k := by
        intro h; exact hf (by simp [h])
      have hftl : f ∉ tl.map Prod.fst := by
        intro h; exact hf (by simp [h])
      by_cases hg : g.all (fun gi => ! gi.isNan)
      · have := ih (updRow emb k (momRow gamma alpha (emb k) (mom k) g).1)
          (updRow mom k (momRow gamma alpha (emb k) (mom k) g).2) f hftl
        simpa [momentumUpdate, hg, updRow, hfk] using this
      · have := ih emb mom f hftl
        simpa [momentumUpdate, hg] using this

/-- A feature absent from the gradient map keeps its rows across an Adam
fold. -/
theorem adamFold_not_mem (beta1 beta2 eps alpha t : ℝ) :
    ∀ (grads : List (ℕ × List F)) (emb mom var : ℕ → List F) (f : ℕ),
      f ∉ grads.map Prod.fst →
      (adamFold beta1 beta2 eps alpha t grads emb mom var).1 f = emb f
        ∧ (adamFold beta1 beta2 eps alpha t grads emb mom var).2.1 f = mom f
        ∧ (adamFold beta1 beta2 eps alpha t grads emb mom var).2.2 f = var f := by
  intro grads
  induction grads with
  | nil => intro emb mom var f _; exact ⟨rfl, rfl, rfl⟩
  | cons hd tl ih =>
      intro emb mom var f hf
      obtain ⟨k, g⟩ := hd
      have hfk : f ≠ k := by
        intro h; exact hf (by simp [h])
      have hftl : f ∉ tl.map Prod.fst := by
        intro h; exact hf (by simp [h])
      by_cases hg : g.all (fun gi => ! gi.isNan)
      · have := ih (updRow emb k (adamEmbRow alpha beta1 beta2 eps t (emb k)
            (adamMomRow beta1 (mom k) g) (adamVarRow beta2 (var k) g)))
          (updRow mom k (adamMomRow beta1 (mom k) g))
          (updRow var k (adamVarRow beta2 (var k) g)) f hftl
        simpa [adamFold, hg, updRow, hfk] using this
      · have := ih emb mom var f hftl
        simpa [adamFold, hg] using this

/-- A gradient row with a NaN coordinate fails the update guard. -/
theorem all_not_isNan_eq_false {g : List F} (h : g.any F.isNan = true) :
    g.all (fun gi => ! gi.isNan) = false := by
  rcases List.any_eq_true.mp h with ⟨x, hx, hnan⟩
  refine List.all_eq_false.mpr ⟨x, hx, ?_⟩
  simp [hnan]

/-- Counterexample to claim C3 as stated: an infinite gradient coordinate is
non-finite yet is not skipped.  With gradient `[+inf]`, `gamma = 0`,
`alpha = 1` and zero rows, the Momentum update changes the feature's momentum
row to `[+inf]` and its embedding row to `[-inf]`. -/
theorem C3_counterexample :
    F.isFinite F.inf = false
    ∧ (momentumUpdate 0 1 [(0, [F.inf])]
        (fun _ => [F.finite 0]) (fun _ => [F.finite 0])).1 0 = [F.neginf]
    ∧ (momentumUpdate 0 1 [(0, [F.inf])]
        (fun _ => [F.finite 0]) (fun _ => [F.finite 0])).2 0 = [F.inf]
    ∧ ([F.neginf] ≠ [F.finite 0] ∧ [F.inf] ≠ (([F.finite 0] : List F))) := by
  refine ⟨rfl, ?_, ?_, ?_, ?_⟩
  · norm_num [momentumUpdate, momRow, updRow, F.isNan, F.add, F.mul, F.sub, F.neg]
  · norm_num [momentumUpdate, momRow, updRow, F.isNan, F.add, F.mul, F.sub, F.neg]
  · intro h
    injection h with h1 h2
    exact F.noConfusion h1
  · intro h
    injection h with h1 h2
    exact F.noConfusion h1

/-- Claim C3 (amended): for both the Momentum and the Adam update, a feature
whose incoming gradient vector has any NaN coordinate is skipped entirely for
that step, leaving its embedding row and every moment row (velocity for
Momentum; first and second moments for Adam) unchanged.  Non-NaN infinite
coordinates are not filtered (see the counterexample). -/
theorem C3_nan_guard :
    (∀ (gamma alpha : ℝ) (grads : List (ℕ × List F)) (emb mom : ℕ → List F)
        (f : ℕ) (g : List F),
        (f, g) ∈ grads → (grads.map Prod.fst).Nodup → g.any F.isNan = true →
        (momentumUpdate gamma alpha grads emb mom).1 f = emb f
          ∧ (momentumUpdate gamma alpha grads emb mom).2 f = mom f)
    ∧ (∀ (beta1 beta2 eps alpha t : ℝ) (grads : List (ℕ × List F))
        (emb mom var : ℕ → List F) (f : ℕ) (g : List F),
        (f, g) ∈ grads → (grads.map Prod.fst).Nodup → g.any F.isNan = true →
        (adamUpdate beta1 beta2 eps alpha t grads emb mom var).1 f = emb f
          ∧ (adamUpdate beta1 beta2 eps alpha t grads emb mom var).2.1 f = mom f
          ∧ (adamUpdate beta1 beta2 eps alpha t grads emb mom var).2.2 f = var f) := by
  constructor
  · intro gamma alpha grads
    induction grads with
    | nil => intro emb mom f g hmem; exact absurd hmem (List.not_mem_nil _)
    | cons hd tl ih =>
        intro emb mom f g hmem hnd hnan
        obtain ⟨k, g0⟩ := hd
        rcases List.mem_cons.mp hmem with heq | htl
        · have hfk : f = k := congrArg Prod.fst heq
          have hgg : g = g0 := congrArg Prod.snd heq
          subst hfk; subst hgg
          have hguard := all_not_isNan_eq_false hnan
          have hknotl : f ∉ tl.map Prod.fst := by
            simpa using (List.nodup_cons.mp hnd).1
          have := momentumUpdate_not_mem gamma alpha tl emb mom f hknotl
          simpa [momentumUpdate, hguard] using this
        · have hfk : f ≠ k := by
            intro h; subst h
            have h1 : f ∉ tl.map Prod.fst := by
              simpa using (List.nodup_cons.mp hnd).1
            exact h1 (List.mem_map_of_mem Prod.fst htl)
          have hndtl : (tl.map Prod.fst).Nodup := (List.nodup_cons.mp hnd).2
          by_cases hg : g0.all (fun gi => ! gi.isNan)
          · have := ih (updRow emb k (momRow gamma alpha (emb k) (mom k) g0).1)
              (updRow mom k (momRow gamma alpha (emb k) (mom k) g0).2) f g htl hndtl hnan
            simpa [momentumUpdate, hg, updRow, hfk] using this
          · have := ih emb mom f g htl hndtl hnan
            simpa [momentumUpdate, hg] using this
  · intro beta1 beta2 eps alpha t grads
    have main : ∀ (u : ℝ) (gs : List (ℕ × List F)) (emb mom var : ℕ → List F)
        (f : ℕ) (g : List F),
        (f, g) ∈ gs → (gs.map Prod.fst).Nodup → g.any F.isNan = true →
        (adamFold beta1 beta2 eps alpha u gs emb mom var).1 f = emb f
          ∧ (adamFold beta1 beta2 eps alpha u gs emb mom var).2.1 f = mom f
          ∧ (adamFold beta1 beta2 eps alpha u gs emb mom var).2.2 f = var f := by
      intro u gs
      induction gs with
      | nil => intro emb mom var f g hmem; exact absurd hmem (List.not_mem_nil _)
      | cons hd tl ih =>
          intro emb mom var f g hmem hnd hnan
          obtain ⟨k, g0⟩ := hd
          rcases List.mem_cons.mp hmem with heq | htl
          · have hfk : f = k := congrArg Prod.fst heq
            have hgg : g = g0 := congrArg Prod.snd heq
            subst hfk; subst hgg
            have hguard := all_not_isNan_eq_false hnan
            have hknotl : f ∉ tl.map Prod.fst := by
              simpa using (List.nodup_cons.mp hnd).1
            have := adamFold_not_mem beta1 beta2 eps alpha u tl emb mom var f hknotl
            simpa [adamFold, hguard] using this
          · have hfk : f ≠ k := by
              intro h; subst h
              have h1 : f ∉ tl.map Prod.fst := by
                simpa using (List.nodup_cons.mp hnd).1
              exact h1 (List.mem_map_of_mem Prod.fst htl)
            have hndtl : (tl.map Prod.fst).Nodup := (List.nodup_cons.mp hnd).2
            by_cases hg : g0.all (fun gi => ! gi.isNan)
            · have := ih (updRow emb k (adamEmbRow alpha beta1 beta2 eps u (emb k)
                  (adamMomRow beta1 (mom k) g0) (adamVarRow beta2 (var k) g0)))
                (updRow mom k (adamMomRow beta1 (mom k) g0))
                (updRow var k (adamVarRow beta2 (var k) g0)) f g htl hndtl hnan
              simpa [adamFold, hg, updRow, hfk] using this
            · have := ih emb mom var f g htl hndtl hnan
              simpa [adamFold, hg] using this
    intro emb mom var f g hmem hnd hnan
    exact main (t + 1) grads emb mom var f g hmem hnd hnan

/-- Witness for C3 (amended): with gradient `[NaN]` neither optimizer changes
the feature's rows. -/
theorem C3_nan_guard_witness :
    (momentumUpdate 0 1 [(0, [F.nan])]
        (fun _ => [F.finite 0]) (fun _ => [F.finite 0])).1 0 = [F.finite 0]
    ∧ (adamUpdate 0 0 0 0 0 [(0, [F.nan])]
        (fun _ => [F.finite 0]) (fun _ => [F.finite 0]) (fun _ => [F.finite 0])).1 0
        = [F.finite 0] := by
  constructor
  · exact (C3_nan_guard.1 0 1 [(0, [F.nan])] (fun _ => [F.finite 0])
      (fun _ => [F.finite 0]) 0 [F.nan] (List.mem_singleton.mpr rfl)
      (by simp) (by rfl)).1
  · exact (C3_nan_guard.2 0 0 0 0 0 [(0, [F.nan])] (fun _ => [F.finite 0])
      (fun _ => [F.finite 0]) (fun _ => [F.finite 0]) 0 [F.nan]
      (List.mem_singleton.mpr rfl) (by simp) (by rfl)).1

/-- On all-finite rows of equal length, `momRow` computes exactly
`mi = gamma*mi + gi` and `ei = ei - alpha*mi`. -/
theorem momRow_finite (gamma alpha : ℝ) :
    ∀ (e v g : List ℝ), e.length = g.length → v.length = g.length →
      momRow gamma alpha (e.map F.finite) (v.map F.finite) (g.map F.finite)
        = ((List.zipWith (fun ei wi => ei - alpha * wi) e
              (List.zipWith (fun vi gi => gamma * vi + gi) v g)).map F.finite,
           (List.zipWith (fun vi gi => gamma * vi + gi) v g).map F.finite) := by
  intro e
  induction e with
  | nil =>
      intro v g he hv
      have hg : g = [] := List.length_eq_zero.mp he.symm
      subst hg
      have hv0 : v = [] := List.length_eq_zero.mp hv
      subst hv0
      rfl
  | cons e0 es ih =>
      intro v g he hv
      cases g with
      | nil => exact absurd he (by simp)
      | cons g0 gs =>
          cases v with
          | nil => exact absurd hv (by simp)
          | cons v0 vs =>
              have he2 : es.length = gs.length := by simpa using he
              have hv2 : vs.length = gs.length := by simpa using hv
              simp only [List.map_cons, momRow, ih vs gs he2 hv2, List.zipWith_cons_cons]
              simp [F.add, F.mul, F.sub, F.neg, sub_eq_add_neg]

/-- With `gamma = 0`, the velocity update leaves just the gradient. -/
theorem zipWith_zero_mul_add :
    ∀ (v g : List ℝ), v.length = g.length →
      List.zipWith (fun vi gi => (0:ℝ) * vi + gi) v g = g := by
  intro v
  induction v with
  | nil => intro g hg; simp [(List.length_eq_zero.mp hg.symm).symm]
  | cons v0 vs ih =>
      intro g hg
      cases g with
      | nil => exact absurd hg (by simp)
      | cons g0 gs =>
          rw [List.zipWith_cons_cons, ih gs (by simpa using hg)]
          norm_num

/-- Claim C9: one Momentum update step for a feature with gradient `g`,
velocity `v` and embedding `e` yields velocity `gamma*v + g` and embedding
`e - alpha*(gamma*v + g)` coordinatewise; with `gamma = 0` the step is plain
gradient descent `e - alpha*g`. -/
theorem C9_momentum_step (gamma alpha : ℝ) (f : ℕ) (e v g : List ℝ)
    (emb mom : ℕ → List F)
    (he : emb f = e.map F.finite) (hv : mom f = v.map F.finite)
    (hle : e.length = g.length) (hlv : v.length = g.length) :
    (momentumUpdate gamma alpha [(f, g.map F.finite)] emb mom).2 f
        = (List.zipWith (fun vi gi => gamma * vi + gi) v g).map F.finite
    ∧ (momentumUpdate gamma alpha [(f, g.map F.finite)] emb mom).1 f
        = (List.zipWith (fun ei wi => ei - alpha * wi) e
            (List.zipWith (fun vi gi => gamma * vi + gi) v g)).map F.finite
    ∧ (gamma = 0 →
        (momentumUpdate gamma alpha [(f, g.map F.finite)] emb mom).1 f
          = (List.zipWith (fun ei gi => ei - alpha * gi) e g).map F.finite) := by
  have hguard : (g.map F.finite).all (fun gi => ! gi.isNan) = true := by
    simp [List.all_map, F.isNan, Function.comp]
  have hrows :
      momRow gamma alpha (emb f) (mom f) (g.map F.finite)
        = ((List.zipWith (fun ei wi => ei - alpha * wi) e
              (List.zipWith (fun vi gi => gamma * vi + gi) v g)).map F.finite,
           (List.zipWith (fun vi gi => gamma * vi + gi) v g).map F.finite) := by
    rw [he, hv]; exact momRow_finite gamma alpha e v g hle hlv
  refine ⟨?_, ?_, ?_⟩
  · simp [momentumUpdate, hguard, hrows, updRow]
  · simp [momentumUpdate, hguard, hrows, updRow]
  · intro h0
    subst h0
    rw [zipWith_zero_mul_add v g hlv] at hrows
    simp [momentumUpdate, hguard, hrows, updRow]

/-- Witness for C9 at a concrete input: `gamma = 2`, `alpha = 3`, `e = [1]`,
`v = [10]`, `g = [4]` gives velocity `[24]` and embedding `[-71]`; and with
`gamma = 0` the same data gives embedding `[1 - 3*4] = [-11]`. -/
theorem C9_momentum_step_witness :
    (momentumUpdate 2 3 [(0, [F.finite 4])]
        (fun _ => [F.finite 1]) (fun _ => [F.finite 10])).2 0 = [F.finite 24]
    ∧ (momentumUpdate 2 3 [(0, [F.finite 4])]
        (fun _ => [F.finite 1]) (fun _ => [F.finite 10])).1 0 = [F.finite (-71)]
    ∧ (momentumUpdate 0 3 [(0, [F.finite 4])]
        (fun _ => [F.finite 1]) (fun _ => [F.finite 10])).1 0 = [F.finite (-11)] := by
  have h2 := C9_momentum_step 2 3 0 [1] [10] [4]
    (fun _ => [F.finite 1]) (fun _ => [F.finite 10]) rfl rfl rfl rfl
  have h0 := C9_momentum_step 0 3 0 [1] [10] [4]
    (fun _ => [F.finite 1]) (fun _ => [F.finite 10]) rfl rfl rfl rfl
  refine ⟨h2.1.trans ?_, h2.2.1.trans ?_, (h0.2.2 rfl).trans ?_⟩ <;> norm_num

/-- Embeds the gradient filter of `extract_grads` (`src/algos/ep.rs` line 190):
`grad.iter().all(|gi| !gi.is_nan())`. -/
def gradKeeps (g : List F) : Bool := g.all (fun gi => ! gi.isNan)

/-- Lookup in a gradient map modelled as the association list of its
insertions (`HashMap::contains_key` / value access). -/
def lookupGrad (m : List (ℕ × List F)) (f : ℕ) : Option (List F) :=
  (m.find? (fun p => p.1 == f)).map Prod.snd

/-- Embeds `extract_grads` (`src/algos/ep.rs` lines 179-197).  The iterator of
`(feature id, (variable, count))` pairs is modelled as the list of pairs of
feature id and the gradient vector the backward pass holds for that
occurrence's variable (`graph.get_grad(&var)`, present as the code's `expect`
demands).  A feature already in the map is skipped; otherwise its gradient is
read and inserted exactly when no coordinate is NaN. -/
def extract_grads : List (ℕ × List F) → List (ℕ × List F) → List (ℕ × List F)
  | m, [] => m
  | m, (f, g) :: rest =>
      if (lookupGrad m f).isSome then extract_grads m rest
      else if gradKeeps g then extract_grads (m ++ [(f, g)]) rest
      else extract_grads m rest

/-- An absent key reads as `none`. -/
theorem lookupGrad_eq_none_iff (m : List (ℕ × List F)) (f : ℕ) :
    lookupGrad m f = none ↔ f ∉ m.map Prod.fst := by
  constructor
  · intro h hmem
    obtain ⟨p, hp, hpf⟩ := List.mem_map.mp hmem
    have hfind : m.find? (fun p => p.1 == f) = none := by
      cases hcase : m.find? (fun p => p.1 == f) with
      | none => rfl
      | some q => rw [lookupGrad, hcase] at h; exact Option.noConfusion h
    have := List.find?_eq_none.mp hfind p hp
    simp [hpf] at this
  · intro h
    rw [lookupGrad]
    have hfind : m.find? (fun p => p.1 == f) = none := by
      refine List.find?_eq_none.mpr ?_
      intro p hp
      simp only [beq_iff_eq]
      intro hpf
      exact h (List.mem_map.mpr ⟨p, hp, hpf⟩)
    rw [hfind]; rfl

/-- Appending a fresh entry changes only its own key's lookup. -/
theorem lookupGrad_append (m : List (ℕ × List F)) (f f' : ℕ) (g : List F) :
    lookupGrad (m ++ [(f, g)]) f'
      = match lookupGrad m f' with
        | some v => some v
        | none => if f = f' then some g else none := by
  induction m with
  | nil =>
      by_cases h : f = f'
      · subst h; simp [lookupGrad, List.find?]
      · have hb : (f == f') = false := beq_eq_false_iff_ne.mpr h
        simp [lookupGrad, List.find?, hb, h]
  | cons p m ih =>
      by_cases h : p.1 == f'
      · simp [lookupGrad, List.find?_cons_of_pos, h]
      · have hn : (p.1 == f') = false := by simpa using h
        simpa [lookupGrad, List.find?_cons_of_neg, hn] using ih

/-- The map `extract_grads` builds, looked up at `f`, holds the first gradient
among `f`'s occurrences that has no NaN coordinate (on top of whatever the
incoming map already held for `f`). -/
theorem extract_grads_lookup :
    ∀ (vars m : List (ℕ × List F)) (f : ℕ),
      lookupGrad (extract_grads m vars) f
        = match lookupGrad m f with
          | some v => some v
          | none => ((vars.filter (fun p => p.1 == f)).map Prod.snd).find? gradKeeps := by
  intro vars
  induction vars with
  | nil =>
      intro m f
      cases h : lookupGrad m f <;> simp [extract_grads, h]
  | cons p rest ih =>
      intro m f
      obtain ⟨k, g⟩ := p
      by_cases hk : (lookupGrad m k).isSome
      · obtain ⟨w, hw⟩ := Option.isSome_iff_exists.mp hk
        cases hmf : lookupGrad m f with
        | some v => simpa [extract_grads, hk, hmf] using ih m f
        | none =>
            have hkf : (k == f) = false := by
              refine beq_eq_false_iff_ne.mpr ?_
              intro h; rw [h, hmf] at hw; exact Option.noConfusion hw
            simpa [extract_grads, hk, hmf, hkf] using ih m f
      · have hmk : lookupGrad m k = none := Option.not_isSome_iff_eq_none.mp hk
        by_cases hg : gradKeeps g
        · by_cases hkf : k = f
          · subst hkf
            have h2 := ih (m ++ [(k, g)]) k
            rw [lookupGrad_append, hmk] at h2
            simp only [if_pos rfl] at h2
            simpa [extract_grads, hk, hg, hmk, List.filter_cons, List.find?] using h2
          · have hbf : (k == f) = false := beq_eq_false_iff_ne.mpr hkf
            have h2 := ih (m ++ [(k, g)]) f
            rw [lookupGrad_append] at h2
            cases hmf : lookupGrad m f with
            | some v =>
                rw [hmf] at h2
                simpa [extract_grads, hk, hg, hmf, hbf] using h2
            | none =>
                rw [hmf, if_neg hkf] at h2
                simpa [extract_grads, hk, hg, hmf, hbf] using h2
        · have hgf : gradKeeps g = false := by simpa using hg
          by_cases hkf : k = f
          · subst hkf
            simpa [extract_grads, hk, hgf, hmk, List.filter_cons, List.find?_cons_of_neg,
              hgf] using ih m k
          · have hbf : (k == f) = false := beq_eq_false_iff_ne.mpr hkf
            simpa [extract_grads, hk, hgf, hbf] using ih m f

/-- Keys stay distinct across `extract_grads`: a feature is inserted only when
absent. -/
theorem extract_grads_nodup :
    ∀ (vars m : List (ℕ × List F)), (m.map Prod.fst).Nodup →
      ((extract_grads m vars).map Prod.fst).Nodup := by
  intro vars
  induction vars with
  | nil => intro m h; exact h
  | cons p rest ih =>
      intro m h
      obtain ⟨k, g⟩ := p
      by_cases hk : (lookupGrad m k).isSome
      · simpa [extract_grads, hk] using ih m h
      · have hmk : lookupGrad m k = none := Option.not_isSome_iff_eq_none.mp hk
        by_cases hg : gradKeeps g
        · have hnotin : k ∉ m.map Prod.fst := (lookupGrad_eq_none_iff m k).mp hmk
          have hnd : ((m ++ [(k, g)]).map Prod.fst).Nodup := by
            rw [List.map_append]
            refine List.Nodup.append h (by simp) ?_
            intro a ha hb
            simp only [List.map_cons, List.map_nil, List.mem_singleton] at hb
            exact hnotin (hb ▸ ha)
          simpa [extract_grads, hk, hg] using ih (m ++ [(k, g)]) hnd
        · simpa [extract_grads, hk, hg] using ih m h

/-- Counterexample to claim C2 as stated: with feature 0 occurring twice, first
with gradient `[NaN]` then with gradient `[+inf]`, the code inserts `[+inf]` —
a vector with a non-finite coordinate is kept (only NaN is filtered), and an
occurrence after the first one contributes. -/
theorem C2_counterexample :
    extract_grads [] [(0, [F.nan]), (0, [F.inf])] = [(0, [F.inf])]
    ∧ F.isFinite F.inf = false := ⟨rfl, rfl⟩

/-- Claim C2 (amended): `extract_grads` never double-counts a feature — the
output map's keys are distinct, so each feature's gradient is inserted at most
once — and the vector stored for a feature is the first among its occurrences
(direct, then reconstructed, then negative construction order) whose
coordinates are all non-NaN; vectors with a NaN coordinate are dropped, and
infinite coordinates are not filtered. -/
theorem C2_extract_grads_spec (vars : List (ℕ × List F)) (f : ℕ) :
    lookupGrad (extract_grads [] vars) f
        = ((vars.filter (fun p => p.1 == f)).map Prod.snd).find? gradKeeps
    ∧ ((extract_grads [] vars).map Prod.fst).Nodup := by
  constructor
  · have h := extract_grads_lookup vars [] f
    simpa [lookupGrad] using h
  · exact extract_grads_nodup vars [] (by simp)

/-- Embeds the `Vocab` bookkeeping of `src/vocab.rs` used by `FeatureStore`:
the two hash maps are association lists (insertion at the tail), the two
id-indexed vectors are lists.  The run-unique `vocab_id` used only by
`is_identical` and translation is omitted; no claim concerns it. -/
structure Vocab where
  nodeTypeToId : List (String × ℕ)
  idToNodeType : List String
  vocabToIdx : List ((ℕ × String) × ℕ)
  nodeIdToNode : List (ℕ × String)

/-- Embeds `Vocab::new` (`src/vocab.rs` lines 20-29). -/
def Vocab.new : Vocab := ⟨[], [], [], []⟩

/-- Embeds `Vocab::len` (`src/vocab.rs` lines 86-88): the number of stored
(type id, name) pairs. -/
def Vocab.len (v : Vocab) : ℕ := v.nodeIdToNode.length

/-- Association-list lookup standing for `HashMap::get`. -/
def alookup {α : Type} [BEq α] (m : List (α × ℕ)) (key : α) : Option ℕ :=
  (m.find? (fun p => p.1 == key)).map Prod.snd

/-- Embeds `Vocab::get_or_insert_node_type` (`src/vocab.rs` lines 51-60). -/
def Vocab.getOrInsertNodeType (v : Vocab) (nodeType : String) : ℕ × Vocab :=
  match alookup v.nodeTypeToId nodeType with
  | some ntId => (ntId, v)
  | none =>
      let newIdx := v.idToNodeType.length
      (newIdx,
        { v with nodeTypeToId := v.nodeTypeToId ++ [(nodeType, newIdx)],
                 idToNodeType := v.idToNodeType ++ [nodeType] })

/-- Embeds `Vocab::get_or_insert` / `get_or_insert_shared` (`src/vocab.rs`
lines 62-78): resolve the node type, then look the (type id, name) pair up and
insert it at the next free node id when absent. -/
def Vocab.getOrInsert (v : Vocab) (nodeType name : String) : ℕ × Vocab :=
  let r := v.getOrInsertNodeType nodeType
  match alookup r.2.vocabToIdx (r.1, name) with
  | some nodeId => (nodeId, r.2)
  | none =>
      let newIdx := r.2.nodeIdToNode.length
      (newIdx,
        { r.2 with vocabToIdx := r.2.vocabToIdx ++ [((r.1, name), newIdx)],
                   nodeIdToNode := r.2.nodeIdToNode ++ [(r.1, name)] })

/-- Embeds `FeatureStore` (`src/algos/ep.rs` lines 12-17). -/
structure FeatureStore where
  features : List (List ℕ)
  feature_vocab : Vocab
  empty_nodes : ℕ

/-- Embeds `FeatureStore::new` (`src/algos/ep.rs` lines 20-26). -/
def FeatureStore.new (size : ℕ) : FeatureStore :=
  ⟨List.replicate size [], Vocab.new, 0⟩

/-- One step of the id-collecting iterator of `FeatureStore::set_features`:
`feature_vocab.get_or_insert("feat", name)` appending the id. -/
def setFeatsStep (acc : List ℕ × Vocab) (name : String) : List ℕ × Vocab :=
  let r2 := acc.2.getOrInsert "feat" name
  (acc.1 ++ [r2.1], r2.2)

/-- Embeds `FeatureStore::set_features` (`src/algos/ep.rs` lines 28-32): each
name is looked-up-or-inserted under node type `feat`, threading the vocabulary
left to right; the node's feature list is replaced by the collected ids. -/
def FeatureStore.set_features (fs : FeatureStore) (node : ℕ) (names : List String) :
    FeatureStore :=
  let r := names.foldl setFeatsStep ([], fs.feature_vocab)
  { fs with features := fs.features.set node r.1, feature_vocab := r.2 }

/-- Embeds `FeatureStore::len` (`src/algos/ep.rs` lines 38-40):
`feature_vocab.len() + empty_nodes`. -/
def FeatureStore.len (fs : FeatureStore) : ℕ := fs.feature_vocab.len + fs.empty_nodes

/-- Embeds the loop of `FeatureStore::fill_missing_nodes` (`src/algos/ep.rs`
lines 42-51): walk the per-node lists carrying the running fresh index and the
`empty_nodes` counter; replace each empty list by the singleton of the next
index. -/
def fillLoop : List (List ℕ) → ℕ → ℕ → List (List ℕ) × ℕ × ℕ
  | [], idxs, empt => ([], idxs, empt)
  | f :: rest, idxs, empt =>
      if f.length = 0 then
        let r := fillLoop rest (idxs + 1) (empt + 1)
        ([idxs] :: r.1, r.2)
      else
        let r := fillLoop rest idxs empt
        (f :: r.1, r.2)

/-- Embeds `FeatureStore::fill_missing_nodes` (`src/algos/ep.rs` lines 42-51):
the fresh index starts at `feature_vocab.len()`. -/
def FeatureStore.fill_missing_nodes (fs : FeatureStore) : FeatureStore :=
  let r := fillLoop fs.features fs.feature_vocab.len fs.empty_nodes
  { fs with features := r.1, empty_nodes := r.2.2 }

/-- The fill loop keeps the number of nodes. -/
theorem fillLoop_length :
    ∀ (l : List (List ℕ)) (idxs empt : ℕ), (fillLoop l idxs empt).1.length = l.length := by
  intro l
  induction l with
  | nil => intro idxs empt; rfl
  | cons f rest ih =>
      intro idxs empt
      by_cases hf : f.length = 0 <;> simp [fillLoop, hf, ih]

/-- The fill loop adds one to the empty-node counter per empty list. -/
theorem fillLoop_count :
    ∀ (l : List (List ℕ)) (idxs empt : ℕ),
      (fillLoop l idxs empt).2.2 = empt + l.countP (fun f => f.length == 0) := by
  intro l
  induction l with
  | nil => intro idxs empt; simp [fillLoop]
  | cons f rest ih =>
      intro idxs empt
      by_cases hf : f.length = 0
      · have hb : ((fun f : List ℕ => f.length == 0) f) = true := by simpa using hf
        simp [fillLoop, hf, ih, List.countP_cons, hb]
        omega
      · have hb : ((fun f : List ℕ => f.length == 0) f) = false := by simpa using hf
        simp [fillLoop, hf, ih, List.countP_cons, hb]

/-- Entrywise description of the fill loop: a non-empty list is kept, the
`i`-th empty list becomes the singleton of the start index plus the number of
empty lists before position `i`. -/
theorem fillLoop_getD :
    ∀ (l : List (List ℕ)) (idxs empt i : ℕ), i < l.length →
      (fillLoop l idxs empt).1.getD i []
        = if (l.getD i []).length = 0
          then [idxs + (l.take i).countP (fun f => f.length == 0)]
          else l.getD i [] := by
  intro l
  induction l with
  | nil => intro idxs empt i hi; exact absurd hi (by simp)
  | cons f rest ih =>
      intro idxs empt i hi
      by_cases hf : f.length = 0
      · have hb : ((fun f : List ℕ => f.length == 0) f) = true := by simpa using hf
        cases i with
        | zero => simp [fillLoop, hf]
        | succ n =>
            have hn : n < rest.length := by simpa using hi
            have h3 := ih (idxs + 1) (empt + 1) n hn
            have hcount : ((f :: rest).take (n + 1)).countP (fun f => f.length == 0)
                = (rest.take n).countP (fun f => f.length == 0) + 1 := by
              simp [List.take_succ_cons, List.countP_cons, hb]
            have hstep : (fillLoop (f :: rest) idxs empt).1.getD (n + 1) []
                = (fillLoop rest (idxs + 1) (empt + 1)).1.getD n [] := by
              simp [fillLoop, hf]
            have hget : ((f :: rest).getD (n + 1) []) = rest.getD n [] := rfl
            rw [hstep, h3, hcount, hget]
            by_cases hr : (rest.getD n []).length = 0
            · rw [if_pos hr, if_pos hr]
              refine congrArg (fun x => [x]) ?_
              omega
            · rw [if_neg hr, if_neg hr]
      · have hb : ((fun f : List ℕ => f.length == 0) f) = false := by simpa using hf
        cases i with
        | zero => simp [fillLoop, hf]
        | succ n =>
            have hn : n < rest.length := by simpa using hi
            have h3 := ih idxs empt n hn
            have hcount : ((f :: rest).take (n + 1)).countP (fun f => f.length == 0)
                = (rest.take n).countP (fun f => f.length == 0) := by
              simp [List.take_succ_cons, List.countP_cons, hb]
            have hstep : (fillLoop (f :: rest) idxs empt).1.getD (n + 1) []
                = (fillLoop rest idxs empt).1.getD n [] := by
              simp [fillLoop, hf]
            have hget : ((f :: rest).getD (n + 1) []) = rest.getD n [] := rfl
            rw [hstep, h3, hcount, hget]

/-- Every list produced by the fill loop is an original list or a fresh
singleton with id below the start index plus the number of empty lists. -/
theorem fillLoop_mem :
    ∀ (l : List (List ℕ)) (idxs empt : ℕ) (x : List ℕ),
      x ∈ (fillLoop l idxs empt).1 →
      x ∈ l ∨ ∃ k, x = [idxs + k] ∧ k < l.countP (fun f => f.length == 0) := by
  intro l
  induction l with
  | nil => intro idxs empt x hx; exact absurd hx (by simp [fillLoop])
  | cons f rest ih =>
      intro idxs empt x hx
      by_cases hf : f.length = 0
      · have hb : ((fun f : List ℕ => f.length == 0) f) = true := by simpa using hf
        simp only [fillLoop, if_pos hf] at hx
        rcases List.mem_cons.mp hx with h0 | h1
        · refine Or.inr ⟨0, by simpa using h0, ?_⟩
          simp [List.countP_cons, hb]
        · rcases ih (idxs + 1) (empt + 1) x h1 with h2 | ⟨k, hk, hklt⟩
          · exact Or.inl (List.mem_cons_of_mem f h2)
          · refine Or.inr ⟨k + 1, by rw [hk]; congr 1; omega, ?_⟩
            simp only [List.countP_cons, hb, if_true]
            omega
      · have hb : ((fun f : List ℕ => f.length == 0) f) = false := by simpa using hf
        simp only [fillLoop, if_neg hf] at hx
        rcases List.mem_cons.mp hx with h0 | h1
        · exact Or.inl (h0 ▸ List.mem_cons_self f rest)
        · rcases ih idxs empt x h1 with h2 | ⟨k, hk, hklt⟩
          · exact Or.inl (List.mem_cons_of_mem f h2)
          · refine Or.inr ⟨k, hk, ?_⟩
            simp only [List.countP_cons, hb, if_false, Bool.false_eq_true]
            omega

/-- The count of empty lists strictly grows from a prefix ending before an
empty position to any longer prefix. -/
theorem countP_take_lt :
    ∀ (l : List (List ℕ)) (i j : ℕ), i < j → j ≤ l.length →
      (l.getD i []).length = 0 →
      (l.take i).countP (fun f => f.length == 0)
        < (l.take j).countP (fun f => f.length == 0) := by
  intro l
  induction l with
  | nil =>
      intro i j hij hj he
      exact absurd (Nat.lt_of_lt_of_le hij hj) (by simp)
  | cons f rest ih =>
      intro i j hij hj he
      cases j with
      | zero => exact absurd hij (by omega)
      | succ m =>
          cases i with
          | zero =>
              have hfb : ((fun f : List ℕ => f.length == 0) f) = true := by simpa using he
              simp [List.take_succ_cons, List.countP_cons, hfb]
          | succ n =>
              have h := ih n m (by omega) (by simpa using hj) (by simpa using he)
              rw [List.take_succ_cons, List.take_succ_cons, List.countP_cons,
                List.countP_cons]
              exact Nat.add_lt_add_right h _

/-- Claim C6: one call to `fill_missing_nodes` on a store not yet filled
(`empty_nodes = 0`, as after `new` and any number of `set_features` calls)
leaves every node's feature list non-empty; a node whose list was empty
receives exactly the singleton of the fresh id `vocabulary size + number of
earlier empty nodes`, so the assigned ids are pairwise distinct and at least
the vocabulary size, and non-empty lists are unchanged; afterwards `len()` is
the vocabulary size plus the number of nodes that were assigned a
singleton. -/
theorem C6_fill_missing_nodes (fs : FeatureStore) (h0 : fs.empty_nodes = 0) :
    (∀ l ∈ fs.fill_missing_nodes.features, l ≠ [])
    ∧ (∀ i, i < fs.features.length →
        (fs.features.getD i [] = [] →
          fs.fill_missing_nodes.features.getD i []
            = [fs.feature_vocab.len
                + (fs.features.take i).countP (fun f => f.length == 0)])
        ∧ (fs.features.getD i [] ≠ [] →
          fs.fill_missing_nodes.features.getD i [] = fs.features.getD i []))
    ∧ (∀ i j, i < j → j < fs.features.length →
        fs.features.getD i [] = [] → fs.features.getD j [] = [] →
        fs.fill_missing_nodes.features.getD i []
          ≠ fs.fill_missing_nodes.features.getD j [])
    ∧ (∀ i, i < fs.features.length → fs.features.getD i [] = [] →
        fs.feature_vocab.len ≤ (fs.fill_missing_nodes.features.getD i []).headD 0)
    ∧ fs.fill_missing_nodes.len
        = fs.feature_vocab.len + fs.features.countP (fun f => f.length == 0) := by
  have hgetD : ∀ i, i < fs.features.length →
      fs.fill_missing_nodes.features.getD i []
        = if (fs.features.getD i []).length = 0
          then [fs.feature_vocab.len
                  + (fs.features.take i).countP (fun f => f.length == 0)]
          else fs.features.getD i [] := by
    intro i hi
    exact fillLoop_getD fs.features fs.feature_vocab.len fs.empty_nodes i hi
  have hlen : fs.fill_missing_nodes.features.length = fs.features.length :=
    fillLoop_length fs.features fs.feature_vocab.len fs.empty_nodes
  refine ⟨?_, ?_, ?_, ?_, ?_⟩
  · intro l hl
    obtain ⟨n, hn, hval⟩ := List.mem_iff_getElem.mp hl
    have hn2 : n < fs.features.length := hlen ▸ hn
    have hD : fs.fill_missing_nodes.features.getD n [] = l := by
      rw [List.getD_eq_getElem _ _ hn]; exact hval
    rw [← hD, hgetD n hn2]
    by_cases he : (fs.features.getD n []).length = 0
    · rw [if_pos he]; exact List.cons_ne_nil _ _
    · rw [if_neg he]
      intro hcon
      exact he (by rw [hcon]; rfl)
  · intro i hi
    constructor
    · intro he
      rw [hgetD i hi, if_pos (by rw [he]; rfl)]
    · intro he
      rw [hgetD i hi, if_neg ?_]
      intro hcon
      exact he (List.length_eq_zero.mp hcon)
  · intro i j hij hj hei hej
    have hi : i < fs.features.length := Nat.lt_trans hij hj
    rw [hgetD i hi, hgetD j hj, if_pos (by rw [hei]; rfl), if_pos (by rw [hej]; rfl)]
    intro hcon
    injection hcon with h1 h2
    have hlt := countP_take_lt fs.features i j hij (Nat.le_of_lt hj) (by rw [hei]; rfl)
    omega
  · intro i hi he
    rw [hgetD i hi, if_pos (by rw [he]; rfl)]
    exact Nat.le_add_right _ _
  · have hc := fillLoop_count fs.features fs.feature_vocab.len fs.empty_nodes
    show fs.feature_vocab.len + (fillLoop fs.features fs.feature_vocab.len fs.empty_nodes).2.2
        = _
    rw [hc, h0, Nat.zero_add]

/-- Witness for C6 at a concrete store: vocabulary of size 1, three nodes of
which the first and third are feature-less; after the fill, node 0 holds the
fresh singleton `[1]` and `len()` is `1 + 2 = 3`. -/
theorem C6_fill_missing_nodes_witness :
    (FeatureStore.fill_missing_nodes
        ⟨[[], [5], []], ⟨[("feat", 0)], ["feat"], [((0, "a"), 0)], [(0, "a")]⟩, 0⟩).len = 3
    ∧ (FeatureStore.fill_missing_nodes
        ⟨[[], [5], []], ⟨[("feat", 0)], ["feat"], [((0, "a"), 0)], [(0, "a")]⟩, 0⟩).features.getD 0 []
        = [1] := by
  have h := C6_fill_missing_nodes
    ⟨[[], [5], []], ⟨[("feat", 0)], ["feat"], [((0, "a"), 0)], [(0, "a")]⟩, 0⟩ rfl
  exact ⟨h.2.2.2.2.trans (by rfl), ((h.2.1 0 (by norm_num)).1 rfl).trans (by rfl)⟩

/-- Well-formedness of the vocabulary: every id stored in the lookup map points
into `node_id_to_node`.  This is the `Vocab` representation invariant the Rust
code maintains by pushing to both containers together. -/
def VocabWF (v : Vocab) : Prop :=
  ∀ p ∈ v.vocabToIdx, p.2 < v.nodeIdToNode.length

/-- A successful association-list lookup returns a stored value. -/
theorem alookup_some {α : Type} [BEq α] (m : List (α × ℕ)) (k : α) (id : ℕ)
    (h : alookup m k = some id) : ∃ p ∈ m, p.2 = id := by
  unfold alookup at h
  cases hf : m.find? (fun p => p.1 == k) with
  | none => rw [hf] at h; exact Option.noConfusion h
  | some p =>
      rw [hf] at h
      exact ⟨p, List.mem_of_find?_eq_some hf, Option.some.inj h⟩

/-- Resolving the node type leaves the name-to-id bookkeeping untouched. -/
theorem getOrInsertNodeType_fields (v : Vocab) (nt : String) :
    (v.getOrInsertNodeType nt).2.vocabToIdx = v.vocabToIdx
      ∧ (v.getOrInsertNodeType nt).2.nodeIdToNode = v.nodeIdToNode := by
  unfold Vocab.getOrInsertNodeType
  cases alookup v.nodeTypeToId nt <;> simp

/-- `get_or_insert` preserves well-formedness, never shrinks the vocabulary
and returns an id strictly below the new size. -/
theorem getOrInsert_spec (v : Vocab) (nt name : String) (hwf : VocabWF v) :
    VocabWF (v.getOrInsert nt name).2
    ∧ (v.getOrInsert nt name).1 < (v.getOrInsert nt name).2.len
    ∧ v.len ≤ (v.getOrInsert nt name).2.len := by
  obtain ⟨hvi, hni⟩ := getOrInsertNodeType_fields v nt
  cases hfind : alookup (v.getOrInsertNodeType nt).2.vocabToIdx
      ((v.getOrInsertNodeType nt).1, name) with
  | some nodeId =>
      have heq : v.getOrInsert nt name = (nodeId, (v.getOrInsertNodeType nt).2) := by
        simp only [Vocab.getOrInsert]
        rw [hfind]
      obtain ⟨p, hp, hpid⟩ := alookup_some _ _ _ hfind
      rw [hvi] at hp
      rw [heq]
      refine ⟨?_, ?_, ?_⟩
      · intro q hq
        rw [hvi] at hq
        show q.2 < (v.getOrInsertNodeType nt).2.nodeIdToNode.length
        rw [hni]
        exact hwf q hq
      · show nodeId < (v.getOrInsertNodeType nt).2.nodeIdToNode.length
        rw [hni]
        exact hpid ▸ hwf p hp
      · show v.nodeIdToNode.length ≤ (v.getOrInsertNodeType nt).2.nodeIdToNode.length
        rw [hni]
  | none =>
      have heq : v.getOrInsert nt name
          = ((v.getOrInsertNodeType nt).2.nodeIdToNode.length,
             { (v.getOrInsertNodeType nt).2 with
                vocabToIdx := (v.getOrInsertNodeType nt).2.vocabToIdx
                  ++ [(((v.getOrInsertNodeType nt).1, name),
                       (v.getOrInsertNodeType nt).2.nodeIdToNode.length)],
                nodeIdToNode := (v.getOrInsertNodeType nt).2.nodeIdToNode
                  ++ [((v.getOrInsertNodeType nt).1, name)] }) := by
        simp only [Vocab.getOrInsert]
        rw [hfind]
      have hlen2 : (v.getOrInsertNodeType nt).2.nodeIdToNode.length
          = v.nodeIdToNode.length := by rw [hni]
      rw [heq]
      refine ⟨?_, ?_, ?_⟩
      · intro q hq
        simp only [List.mem_append, List.mem_singleton] at hq
        show q.2 < ((v.getOrInsertNodeType nt).2.nodeIdToNode
            ++ [((v.getOrInsertNodeType nt).1, name)]).length
        simp only [List.length_append, List.length_singleton]
        rcases hq with hq | hq
        · rw [hvi] at hq
          have h1 := hwf q hq
          omega
        · subst hq
          omega
      · show (v.getOrInsertNodeType nt).2.nodeIdToNode.length
            < ((v.getOrInsertNodeType nt).2.nodeIdToNode
                ++ [((v.getOrInsertNodeType nt).1, name)]).length
        simp
      · show v.nodeIdToNode.length
            ≤ ((v.getOrInsertNodeType nt).2.nodeIdToNode
                ++ [((v.getOrInsertNodeType nt).1, name)]).length
        simp only [List.length_append, List.length_singleton]
        omega

/-- The id-collecting fold of `set_features` keeps the vocabulary well formed,
keeps every collected id below the resulting vocabulary size, and never
shrinks the vocabulary. -/
theorem setFeatsFold_spec :
    ∀ (names : List String) (acc : List ℕ × Vocab), VocabWF acc.2 →
      (∀ id ∈ acc.1, id < acc.2.len) →
      VocabWF (names.foldl setFeatsStep acc).2
      ∧ (∀ id ∈ (names.foldl setFeatsStep acc).1, id < (names.foldl setFeatsStep acc).2.len)
      ∧ acc.2.len ≤ (names.foldl setFeatsStep acc).2.len := by
  intro names
  induction names with
  | nil => intro acc hwf hids; exact ⟨hwf, hids, le_rfl⟩
  | cons name rest ih =>
      intro acc hwf hids
      obtain ⟨hwf2, hlt2, hle2⟩ := getOrInsert_spec acc.2 "feat" name hwf
      have hstep : ∀ id ∈ (setFeatsStep acc name).1, id < (setFeatsStep acc name).2.len := by
        intro id hid
        simp only [setFeatsStep, List.mem_append, List.mem_singleton] at hid
        rcases hid with hid | hid
        · exact Nat.lt_of_lt_of_le (hids id hid) hle2
        · exact hid ▸ hlt2
      obtain ⟨h1, h2, h3⟩ := ih (setFeatsStep acc name) hwf2 hstep
      exact ⟨h1, h2, le_trans hle2 h3⟩

/-- States a `FeatureStore` can reach under the claim's proviso: built by
`new`, any number of `set_features` calls, then at most one
`fill_missing_nodes` with no `set_features` afterwards.  The flag records
whether the fill has run. -/
inductive ReachedStore : FeatureStore → Bool → Prop where
  | new (n : ℕ) : ReachedStore (FeatureStore.new n) false
  | set (fs : FeatureStore) (node : ℕ) (names : List String) :
      ReachedStore fs false → ReachedStore (fs.set_features node names) false
  | fill (fs : FeatureStore) :
      ReachedStore fs false → ReachedStore fs.fill_missing_nodes true

/-- Invariant carried by reachable stores: the vocabulary is well formed;
before the fill the `empty_nodes` counter is zero and all ids are below the
vocabulary size; after the fill all ids are below `len()`. -/
def StoreInv (fs : FeatureStore) (filled : Bool) : Prop :=
  VocabWF fs.feature_vocab
  ∧ (filled = false →
      fs.empty_nodes = 0 ∧ ∀ l ∈ fs.features, ∀ id ∈ l, id < fs.feature_vocab.len)
  ∧ (filled = true → ∀ l ∈ fs.features, ∀ id ∈ l, id < fs.len)

/-- Every reachable store satisfies the invariant. -/
theorem reached_inv (fs : FeatureStore) (b : Bool) (h : ReachedStore fs b) :
    StoreInv fs b := by
  induction h with
  | new n =>
      refine ⟨?_, fun _ => ⟨rfl, ?_⟩, fun hcon => Bool.noConfusion hcon⟩
      · intro p hp; exact absurd hp (by simp [FeatureStore.new, Vocab.new])
      · intro l hl id hid
        have : l = [] := List.eq_of_mem_replicate hl
        exact absurd hid (this ▸ List.not_mem_nil id)
  | set fs node names hr ih =>
      obtain ⟨hwf, hpre, _⟩ := ih
      obtain ⟨hemp, hids⟩ := hpre rfl
      obtain ⟨hwf2, hids2, hle2⟩ :=
        setFeatsFold_spec names ([], fs.feature_vocab) hwf (by intro id hid; simp at hid)
      refine ⟨hwf2, fun _ => ⟨hemp, ?_⟩, fun hcon => Bool.noConfusion hcon⟩
      intro l hl id hid
      rcases List.mem_or_eq_of_mem_set hl with hold | hnew
      · exact Nat.lt_of_lt_of_le (hids l hold id hid) hle2
      · exact hids2 id (hnew ▸ hid)
  | fill fs hr ih =>
      obtain ⟨hwf, hpre, _⟩ := ih
      obtain ⟨hemp, hids⟩ := hpre rfl
      refine ⟨hwf, fun hcon => Bool.noConfusion hcon, fun _ => ?_⟩
      intro l hl id hid
      have hcnt := fillLoop_count fs.features fs.feature_vocab.len fs.empty_nodes
      have hlen : fs.fill_missing_nodes.len
          = fs.feature_vocab.len + fs.features.countP (fun f => f.length == 0) := by
        show fs.feature_vocab.len
            + (fillLoop fs.features fs.feature_vocab.len fs.empty_nodes).2.2 = _
        rw [hcnt, hemp, Nat.zero_add]
      rcases fillLoop_mem fs.features fs.feature_vocab.len fs.empty_nodes l hl with
        hold | ⟨k, hk, hklt⟩
      · have := hids l hold id hid
        rw [hlen]
        omega
      · have : id = fs.feature_vocab.len + k := by
          rw [hk] at hid
          simpa using hid
        rw [hlen, this]
        omega

/-- Claim C10: provided `set_features` is never called after
`fill_missing_nodes` (the reachable states above), every feature id appearing
in any node's feature list is strictly less than `len()`, so every lookup of a
feature's row in an embedding table of size `len()` is in bounds. -/
theorem C10_feature_ids_in_bounds (fs : FeatureStore) (b : Bool)
    (h : ReachedStore fs b) :
    ∀ l ∈ fs.features, ∀ id ∈ l, id < fs.len := by
  obtain ⟨_, hpre, hpost⟩ := reached_inv fs b h
  cases b with
  | false =>
      obtain ⟨hemp, hids⟩ := hpre rfl
      intro l hl id hid
      have := hids l hl id hid
      show id < fs.feature_vocab.len + fs.empty_nodes
      omega
  | true => exact hpost rfl

/-- Witness for C10: the store built by `new 2`, `set_features 0 ["a"]`, then
`fill_missing_nodes` holds the lists `[[0], [1]]`, and the theorem bounds the
singleton id 1 by `len() = 2`. -/
theorem C10_feature_ids_in_bounds_witness :
    (((FeatureStore.new 2).set_features 0 ["a"]).fill_missing_nodes).features
        = [[0], [1]]
    ∧ 1 < (((FeatureStore.new 2).set_features 0 ["a"]).fill_missing_nodes).len := by
  constructor
  · rfl
  · exact C10_feature_ids_in_bounds _ true
      (ReachedStore.fill _ (ReachedStore.set _ 0 ["a"] (ReachedStore.new 2)))
      [1] (by rw [show (((FeatureStore.new 2).set_features 0 ["a"]).fill_missing_nodes).features
            = [[0], [1]] from rfl]; simp)
      1 (by simp)

/-- Elementwise in-place addition of a gradient into an accumulator row
(`e.iter_mut().zip(grad.iter()).for_each(|(ei, gi)| *ei += *gi)`,
`src/algos/ep.rs` line 123); coordinates past the shorter list keep their old
values.  Pure-arithmetic merging does not inspect IEEE special values, so
coordinates are modelled as plain reals here. -/
def addInto (e g : List ℝ) : List ℝ :=
  List.zipWith (fun ei gi => ei + gi) e g ++ e.drop g.length

/-- Lookup in a real-vector gradient map modelled as an association list. -/
def lookupR (m : List (ℕ × List ℝ)) (f : ℕ) : Option (List ℝ) :=
  (m.find? (fun p => p.1 == f)).map Prod.snd

/-- Embeds `all_grads.entry(feat).or_insert_with(|| vec![0.; grad.len()])`
followed by the elementwise addition (`src/algos/ep.rs` lines 122-123) on the
association-list view of the batch map. -/
def entryAdd : List (ℕ × List ℝ) → ℕ → List ℝ → List (ℕ × List ℝ)
  | [], f, g => [(f, addInto (List.replicate g.length 0) g)]
  | (k, v) :: rest, f, g =>
      if k = f then (k, addInto v g) :: rest else (k, v) :: entryAdd rest f g

/-- Merging one node's gradient map into the batch map (the inner loop of
`src/algos/ep.rs` lines 121-124). -/
def mergeInto (acc : List (ℕ × List ℝ)) (gset : List (ℕ × List ℝ)) :
    List (ℕ × List ℝ) :=
  gset.foldl (fun a p => entryAdd a p.1 p.2) acc

/-- Embeds the batch aggregation of `learn_feature_embeddings`
(`src/algos/ep.rs` lines 118-127): the cleared `all_grads` map accumulates
every per-node gradient map of the batch. -/
def mergeGrads (sets : List (List (ℕ × List ℝ))) : List (ℕ × List ℝ) :=
  sets.foldl mergeInto []

/-- Reference elementwise sum of a family of vectors, per the claim's words. -/
def elemSum (vs : List (List ℝ)) : List ℝ :=
  match vs with
  | [] => []
  | v :: rest => rest.foldl (fun a b => List.zipWith (fun x y => x + y) a b) v

/-- Lookup at the head key. -/
theorem lookupR_cons_self (k : ℕ) (v : List ℝ) (rest : List (ℕ × List ℝ)) :
    lookupR ((k, v) :: rest) k = some v := by
  simp [lookupR, List.find?_cons_of_pos]

/-- Lookup skips a head with a different key. -/
theorem lookupR_cons_ne (k : ℕ) (v : List ℝ) (rest : List (ℕ × List ℝ)) (f : ℕ)
    (h : f ≠ k) : lookupR ((k, v) :: rest) f = lookupR rest f := by
  have hb : (k == f) = false := beq_eq_false_iff_ne.mpr (Ne.symm h)
  simp [lookupR, List.find?_cons_of_neg, hb]

/-- An absent key reads as `none` (real-vector maps). -/
theorem lookupR_eq_none_iff (m : List (ℕ × List ℝ)) (f : ℕ) :
    lookupR m f = none ↔ f ∉ m.map Prod.fst := by
  constructor
  · intro h hmem
    obtain ⟨p, hp, hpf⟩ := List.mem_map.mp hmem
    have hfind : m.find? (fun p => p.1 == f) = none := by
      cases hcase : m.find? (fun p => p.1 == f) with
      | none => rfl
      | some q => rw [lookupR, hcase] at h; exact Option.noConfusion h
    have := List.find?_eq_none.mp hfind p hp
    simp [hpf] at this
  · intro h
    rw [lookupR]
    have hfind : m.find? (fun p => p.1 == f) = none := by
      refine List.find?_eq_none.mpr ?_
      intro p hp
      simp only [beq_iff_eq]
      intro hpf
      exact h (List.mem_map.mpr ⟨p, hp, hpf⟩)
    rw [hfind]; rfl

/-- Lookup after `entryAdd`: the touched key accumulates, other keys are
unchanged. -/
theorem lookupR_entryAdd :
    ∀ (m : List (ℕ × List ℝ)) (f f' : ℕ) (g : List ℝ),
      lookupR (entryAdd m f g) f'
        = if f' = f
          then some (addInto
            (match lookupR m f with
             | some w => w
             | none => List.replicate g.length 0) g)
          else lookupR m f' := by
  intro m
  induction m with
  | nil =>
      intro f f' g
      by_cases h : f' = f
      · subst h
        rw [if_pos rfl]
        show lookupR [(f', addInto (List.replicate g.length 0) g)] f' = _
        rw [lookupR_cons_self]
        rfl
      · rw [if_neg h]
        show lookupR [(f, addInto (List.replicate g.length 0) g)] f' = lookupR [] f'
        rw [lookupR_cons_ne _ _ _ _ h]
  | cons p rest ih =>
      intro f f' g
      obtain ⟨k, v⟩ := p
      by_cases hk : k = f
      · subst hk
        have hstep : entryAdd ((k, v) :: rest) k g = (k, addInto v g) :: rest := by
          simp [entryAdd]
        by_cases hf : f' = k
        · subst hf
          rw [if_pos rfl, hstep, lookupR_cons_self, lookupR_cons_self]
        · rw [if_neg hf, hstep, lookupR_cons_ne _ _ _ _ hf, lookupR_cons_ne _ _ _ _ hf]
      · have hstep : entryAdd ((k, v) :: rest) f g = (k, v) :: entryAdd rest f g := by
          simp [entryAdd, hk]
        have hfk : f ≠ k := fun hc => hk hc.symm
        by_cases hf : f' = k
        · subst hf
          rw [if_neg hfk.symm, hstep, lookupR_cons_self, lookupR_cons_self]
        · rw [hstep, lookupR_cons_ne _ _ _ _ hf, ih f f' g,
            lookupR_cons_ne k v rest f hfk, lookupR_cons_ne k v rest f' hf]

/-- Lookup after merging one per-node map with distinct keys. -/
theorem lookupR_mergeInto :
    ∀ (s m : List (ℕ × List ℝ)) (f : ℕ), (s.map Prod.fst).Nodup →
      lookupR (mergeInto m s) f
        = match lookupR s f with
          | none => lookupR m f
          | some g => some (addInto
              (match lookupR m f with
               | some w => w
               | none => List.replicate g.length 0) g) := by
  intro s
  induction s with
  | nil => intro m f _; rfl
  | cons p rest ih =>
      intro m f hnd
      obtain ⟨k, v⟩ := p
      have hndr : (rest.map Prod.fst).Nodup := (List.nodup_cons.mp hnd).2
      have hknotin : k ∉ rest.map Prod.fst := by
        simpa using (List.nodup_cons.mp hnd).1
      have hfold : mergeInto m ((k, v) :: rest) = mergeInto (entryAdd m k v) rest := rfl
      rw [hfold, ih (entryAdd m k v) f hndr]
      by_cases h : f = k
      · subst h
        have hrest : lookupR rest f = none := (lookupR_eq_none_iff rest f).mpr hknotin
        rw [hrest, lookupR_entryAdd m f f v, if_pos rfl, lookupR_cons_self]
      · rw [lookupR_cons_ne k v rest f h, lookupR_entryAdd m k f v, if_neg h]

/-- Combination of an accumulator entry with the per-node values of one
feature across a batch: absent stays absent, otherwise fold the additions
starting from the zero-initialised first insertion. -/
def combineM (o : Option (List ℝ)) (vs : List (List ℝ)) : Option (List ℝ) :=
  match o, vs with
  | none, [] => none
  | some w, vs => some (vs.foldl addInto w)
  | none, v :: rest => some (rest.foldl addInto (addInto (List.replicate v.length 0) v))

/-- Folding the per-node maps accumulates, per feature, exactly the values the
maps hold for it. -/
theorem lookupR_mergeGrads_fold :
    ∀ (sets : List (List (ℕ × List ℝ))) (m : List (ℕ × List ℝ)) (f : ℕ),
      (∀ s ∈ sets, (s.map Prod.fst).Nodup) →
      lookupR (sets.foldl mergeInto m) f
        = combineM (lookupR m f) (sets.filterMap (fun s => lookupR s f)) := by
  intro sets
  induction sets with
  | nil =>
      intro m f _
      cases h : lookupR m f <;> simp [combineM, h]
  | cons s rest ih =>
      intro m f hnd
      have hnds : (s.map Prod.fst).Nodup := hnd s (List.mem_cons_self s rest)
      have hndr : ∀ t ∈ rest, (t.map Prod.fst).Nodup :=
        fun t ht => hnd t (List.mem_cons_of_mem s ht)
      have hstep : (s :: rest).foldl mergeInto m = rest.foldl mergeInto (mergeInto m s) :=
        rfl
      rw [hstep, ih (mergeInto m s) f hndr, lookupR_mergeInto s m f hnds]
      cases hs : lookupR s f with
      | none => simp [List.filterMap_cons, hs]
      | some g =>
          cases hm : lookupR m f with
          | none => simp [combineM, List.filterMap_cons, hs, hm, List.foldl_cons]
          | some w => simp [combineM, List.filterMap_cons, hs, hm, List.foldl_cons]

/-- Adding a vector into a zero row of its own length gives the vector back. -/
theorem addInto_replicate_self (v : List ℝ) :
    addInto (List.replicate v.length 0) v = v := by
  have hz : ∀ w : List ℝ,
      List.zipWith (fun ei gi => ei + gi) (List.replicate w.length 0) w = w := by
    intro w
    induction w with
    | nil => rfl
    | cons x xs ih => simp [List.replicate_succ, ih]
  unfold addInto
  have hd : List.drop v.length (List.replicate v.length (0:ℝ)) = [] := by
    simp
  rw [hd, hz, List.append_nil]

/-- With equal lengths the in-place addition is exactly the elementwise sum. -/
theorem addInto_of_length_eq (a b : List ℝ) (h : a.length = b.length) :
    addInto a b = List.zipWith (fun x y => x + y) a b := by
  unfold addInto
  rw [← h, List.drop_length, List.append_nil]

/-- With all rows of length `D`, the accumulated fold is the elementwise-sum
fold. -/
theorem foldl_addInto_eq (D : ℕ) :
    ∀ (rest : List (List ℝ)) (a : List ℝ), a.length = D → (∀ b ∈ rest, b.length = D) →
      rest.foldl addInto a
        = rest.foldl (fun x y => List.zipWith (fun u w => u + w) x y) a := by
  intro rest
  induction rest with
  | nil => intro a _ _; rfl
  | cons b bs ih =>
      intro a ha hb
      have hbD : b.length = D := hb b (List.mem_cons_self b bs)
      have hab : addInto a b = List.zipWith (fun u w => u + w) a b :=
        addInto_of_length_eq a b (ha.trans hbD.symm)
      have hlen : (List.zipWith (fun u w => u + w) a b).length = D := by
        rw [List.length_zipWith, ha, hbD, Nat.min_self]
      simp only [List.foldl_cons, hab]
      exact ih _ hlen (fun c hc => hb c (List.mem_cons_of_mem b hc))

/-- A value a per-node map holds is one of its stored vectors. -/
theorem lookupR_some_mem (s : List (ℕ × List ℝ)) (f : ℕ) (v : List ℝ)
    (h : lookupR s f = some v) : ∃ p ∈ s, p.2 = v := by
  unfold lookupR at h
  cases hf : s.find? (fun p => p.1 == f) with
  | none => rw [hf] at h; exact Option.noConfusion h
  | some p =>
      rw [hf] at h
      exact ⟨p, List.mem_of_find?_eq_some hf, Option.some.inj h⟩

/-- Claim C7: the merged batch map contains a feature id iff some per-node map
of the batch contains it, and the merged vector for a feature is the
elementwise sum of that feature's gradient vectors over all per-node maps that
contain it (all gradient vectors having the batch dimensionality `D`, each
per-node map with distinct keys as a `HashMap` guarantees). -/
theorem C7_batch_merge (D : ℕ) (sets : List (List (ℕ × List ℝ))) (f : ℕ)
    (hD : ∀ s ∈ sets, ∀ p ∈ s, (p.2).length = D)
    (hnd : ∀ s ∈ sets, (s.map Prod.fst).Nodup) :
    (lookupR (mergeGrads sets) f ≠ none ↔ ∃ s ∈ sets, f ∈ s.map Prod.fst)
    ∧ lookupR (mergeGrads sets) f
        = match sets.filterMap (fun s => lookupR s f) with
          | [] => none
          | v :: rest => some (elemSum (v :: rest)) := by
  have hvals : ∀ b ∈ sets.filterMap (fun s => lookupR s f), b.length = D := by
    intro b hb
    obtain ⟨s, hs, hsb⟩ := List.mem_filterMap.mp hb
    obtain ⟨p, hp, hpb⟩ := lookupR_some_mem s f b hsb
    exact hpb ▸ hD s hs p hp
  have hmain := lookupR_mergeGrads_fold sets [] f hnd
  have hval : lookupR (mergeGrads sets) f
      = match sets.filterMap (fun s => lookupR s f) with
        | [] => none
        | v :: rest => some (elemSum (v :: rest)) := by
    rw [show mergeGrads sets = sets.foldl mergeInto [] from rfl, hmain]
    cases hvs : sets.filterMap (fun s => lookupR s f) with
    | nil => rfl
    | cons v rest =>
        have hvD : v.length = D := hvals v (by rw [hvs]; exact List.mem_cons_self v rest)
        have hrD : ∀ b ∈ rest, b.length = D := by
          intro b hb
          exact hvals b (by rw [hvs]; exact List.mem_cons_of_mem v hb)
        show combineM (lookupR ([] : List (ℕ × List ℝ)) f) (v :: rest) = _
        show some (rest.foldl addInto (addInto (List.replicate v.length 0) v)) = _
        rw [addInto_replicate_self v, foldl_addInto_eq D rest v hvD hrD]
        rfl
  have hiff : sets.filterMap (fun s => lookupR s f) ≠ []
      ↔ ∃ s ∈ sets, f ∈ s.map Prod.fst := by
    constructor
    · intro hne
      by_contra hcon
      push_neg at hcon
      apply hne
      refine List.filterMap_eq_nil_iff.mpr ?_
      intro s hs
      exact (lookupR_eq_none_iff s f).mpr (hcon s hs)
    · rintro ⟨s, hs, hf⟩ hnil
      exact (lookupR_eq_none_iff s f).mp (List.filterMap_eq_nil_iff.mp hnil s hs) hf
  refine ⟨?_, hval⟩
  rw [hval]
  cases hvs : sets.filterMap (fun s => lookupR s f) with
  | nil =>
      constructor
      · intro hcon; exact absurd rfl hcon
      · intro hex; exact absurd (hvs ▸ hiff.mpr hex) (by simp)
  | cons v rest =>
      constructor
      · intro _; exact hiff.mp (by rw [hvs]; exact List.cons_ne_nil v rest)
      · intro _; exact Option.noConfusion

/-- Witness for C7: two per-node maps, feature 0 contributed by both with
vectors `[1,2]` and `[10,20]`; the merged vector is `[11,22]`. -/
theorem C7_batch_merge_witness :
    lookupR (mergeGrads [[(0, [1, 2])], [(0, [10, 20]), (1, [5, 5])]]) 0
      = some [11, 22] := by
  have h := (C7_batch_merge 2 [[(0, [1, 2])], [(0, [10, 20]), (1, [5, 5])]] 0
    (by intro s hs p hp; fin_cases hs <;> fin_cases hp <;> rfl)
    (by intro s hs; fin_cases hs <;> simp)).2
  rw [h]
  have hfm : List.filterMap (fun s => lookupR s 0)
      [[((0:ℕ), [(1:ℝ), 2])], [(0, [10, 20]), (1, [5, 5])]]
      = [[1, 2], [10, 20]] := by
    simp [lookupR, List.find?, List.filterMap]
  rw [hfm]
  show some (elemSum [[1, 2], [10, 20]]) = _
  norm_num [elemSum]

/-- Modelled from the spec: the differentiation engine's dot product (listed
among the differentiable primitives of section 6) — a scalar, i.e. a value
vector of length one. -/
def dotN (a b : List ℝ) : List ℝ := [(List.zipWith (fun x y => x * y) a b).sum]

/-- Multiplication of a node by an `f32` scalar, broadcast over the value
(`dot * (ic * jc) as f32`). -/
def scaleN (v : List ℝ) (c : ℝ) : List ℝ := v.map (fun x => x * c)

/-- The engine's `sum_all`: elementwise sum of the value vectors. -/
def sumAllN (l : List (List ℝ)) : List ℝ :=
  match l with
  | [] => []
  | v :: rest => rest.foldl (fun a b => List.zipWith (fun x y => x + y) a b) v

/-- Division of a node's value by a scalar constant (`/ &d_k`). -/
noncomputable def divN (v : List ℝ) (c : ℝ) : List ℝ := v.map (fun x => x / c)

/-- One pair's scaled score node of `attention_mean`
(`src/algos/ep/model.rs` lines 264-265): `dot * (ic * jc) as f32`. -/
def sdotN (iv : List ℝ) (ic : ℕ) (jv : List ℝ) (jc : ℕ) : List ℝ :=
  scaleN (dotN iv jv) ((ic * jc : ℕ) : ℝ)

/-- Push of one score into rows `i` and `j` of the `scaled` matrix (lines
266-267). -/
def pushPair (scaled : List (List (List ℝ))) (i j : ℕ) (v : List ℝ) :
    List (List (List ℝ)) :=
  let s1 := scaled.set i ((scaled.getD i []) ++ [v])
  s1.set j ((s1.getD j []) ++ [v])

/-- The double loop of `attention_mean` (`src/algos/ep/model.rs` lines
259-269): for every position pair `i < j` the scaled dot-product score is
pushed into both rows of `scaled`. -/
def buildScaled (items : List (List ℝ × ℕ)) : List (List (List ℝ)) :=
  (List.range items.length).foldl
    (fun acc i =>
      (List.range (items.length - (i + 1))).foldl
        (fun acc2 dj =>
          pushPair acc2 i (i + 1 + dj)
            (sdotN (items.getD i ([], 0)).1 (items.getD i ([], 0)).2
                   (items.getD (i + 1 + dj) ([], 0)).1
                   (items.getD (i + 1 + dj) ([], 0)).2))
        acc)
    (List.replicate items.length [])

/-- The `d_k` of `attention_mean` (`src/algos/ep/model.rs` line 272):
`(scaled[0][0].value().len() as f32).sqrt()` — the square root of the length
of the first stored score node's value. -/
noncomputable def d_k (items : List (List ℝ × ℕ)) : ℝ :=
  Real.sqrt ((((buildScaled items).getD 0 []).getD 0 []).length : ℝ)

/-- The code's pre-softmax score of each row: the argument of the exponential
in `(dots.sum_all() / &d_k).exp()` (line 274). -/
noncomputable def codeScores (items : List (List ℝ × ℕ)) : List ℝ :=
  (buildScaled items).map (fun dots => (sumAllN dots).headD 0 / d_k items)

/-- The exponential nodes of `attention_mean` (lines 273-275):
`(dots.sum_all() / &d_k).exp()` for every row. -/
noncomputable def attExps (items : List (List ℝ × ℕ)) : List (List ℝ) :=
  (buildScaled items).map (fun dots => (divN (sumAllN dots) (d_k items)).map Real.exp)

/-- The attention weights (lines 277-278): each exponential divided by the
summed exponentials. -/
noncomputable def attWeights (items : List (List ℝ × ℕ)) : List (List ℝ) :=
  (attExps items).map (fun v => List.zipWith (fun x y => x / y) v (sumAllN (attExps items)))

/-- Reference pre-softmax scores per claim C4: for each feature, the sum over
all other features of the raw-embedding dot product times the product of the
two multiplicities, divided by the square root of the embedding
dimensionality `D`. -/
noncomputable def specScores (items : List (List ℝ × ℕ)) : List ℝ :=
  (List.range items.length).map (fun i =>
    (((List.range items.length).filter (fun j => j ≠ i)).map (fun j =>
        (List.zipWith (fun x y => x * y)
            (items.getD i ([], 0)).1 (items.getD j ([], 0)).1).sum
          * (((items.getD i ([], 0)).2 * (items.getD j ([], 0)).2 : ℕ) : ℝ))).sum
      / Real.sqrt (((items.getD 0 ([], 0)).1.length : ℕ) : ℝ))

/-- Maximum of a list of scores (its first element as the base case). -/
def maxScore (l : List ℝ) : ℝ := l.foldl max (l.headD 0)

/-- Reference stabilized exponentials per claim C5: exponentials of the
max-shifted scores. -/
noncomputable def stabExps (items : List (List ℝ × ℕ)) : List (List ℝ) :=
  (codeScores items).map (fun x => [Real.exp (x - maxScore (codeScores items))])

/-- Claim C4 evaluated at a failing input (code bug): with two distinct
features of multiplicity 1 and 4-dimensional embeddings `[1,0,0,0]` and
`[1,1,0,0]`, the score nodes are scalars, so the code's divisor
`d_k = sqrt(scaled[0][0].value().len())` is `sqrt 1 = 1` and the code's
pre-softmax scores are `[1, 1]`, while the claimed scaled-dot-product scores
(sum divided by `sqrt D = sqrt 4 = 2`) are `[1/2, 1/2]`: the pre-softmax
divisor is not `sqrt D`. -/
theorem C4_attention_divisor_bug :
    d_k [([(1:ℝ), 0, 0, 0], 1), ([1, 1, 0, 0], 1)] = 1
    ∧ codeScores [([(1:ℝ), 0, 0, 0], 1), ([1, 1, 0, 0], 1)] = [1, 1]
    ∧ specScores [([(1:ℝ), 0, 0, 0], 1), ([1, 1, 0, 0], 1)] = [1 / 2, 1 / 2]
    ∧ codeScores [([(1:ℝ), 0, 0, 0], 1), ([1, 1, 0, 0], 1)]
        ≠ specScores [([(1:ℝ), 0, 0, 0], 1), ([1, 1, 0, 0], 1)] := by
  have hbuild : buildScaled [([(1:ℝ), 0, 0, 0], 1), ([1, 1, 0, 0], 1)]
      = [[[1]], [[1]]] := by
    simp [buildScaled, pushPair, sdotN, dotN, scaleN, List.range_succ]
  have hdk : d_k [([(1:ℝ), 0, 0, 0], 1), ([1, 1, 0, 0], 1)] = 1 := by
    simp [d_k, hbuild]
  have hcode : codeScores [([(1:ℝ), 0, 0, 0], 1), ([1, 1, 0, 0], 1)] = [1, 1] := by
    simp [codeScores, hbuild, hdk, sumAllN]
  have h4 : Real.sqrt 4 = 2 := by
    rw [show (4:ℝ) = 2 ^ 2 by norm_num, Real.sqrt_sq (by norm_num)]
  have hspec : specScores [([(1:ℝ), 0, 0, 0], 1), ([1, 1, 0, 0], 1)]
      = [1 / 2, 1 / 2] := by
    simp [specScores, List.range_succ, h4]
  refine ⟨hdk, hcode, hspec, ?_⟩
  rw [hcode, hspec]
  intro h
  injection h with h1 h2
  norm_num at h1

/-- Claim C5 evaluated at a failing input (code bug): with features `[1]` and
`[2]` of multiplicity 1 the attention scores are `[2, 2]`; the code
exponentiates the raw scores, producing `[[exp 2], [exp 2]]`, while the
max-shifted reference exponentials are `[[exp (2-2)], [exp (2-2)]] =
[[1], [1]]`: an exponential is taken of an unshifted score and the computed
exponential nodes differ from the stabilized ones. -/
theorem C5_softmax_not_stabilized :
    attExps [([(1:ℝ)], 1), ([2], 1)] = [[Real.exp 2], [Real.exp 2]]
    ∧ stabExps [([(1:ℝ)], 1), ([2], 1)] = [[1], [1]]
    ∧ attExps [([(1:ℝ)], 1), ([2], 1)] ≠ stabExps [([(1:ℝ)], 1), ([2], 1)] := by
  have hbuild : buildScaled [([(1:ℝ)], 1), ([2], 1)] = [[[2]], [[2]]] := by
    simp [buildScaled, pushPair, sdotN, dotN, scaleN, List.range_succ]
  have hdk : d_k [([(1:ℝ)], 1), ([2], 1)] = 1 := by
    simp [d_k, hbuild]
  have hexp : attExps [([(1:ℝ)], 1), ([2], 1)] = [[Real.exp 2], [Real.exp 2]] := by
    simp [attExps, hbuild, hdk, sumAllN, divN]
  have hcs : codeScores [([(1:ℝ)], 1), ([2], 1)] = [2, 2] := by
    simp [codeScores, hbuild, hdk, sumAllN]
  have hstab : stabExps [([(1:ℝ)], 1), ([2], 1)] = [[1], [1]] := by
    simp [stabExps, hcs, maxScore, Real.exp_zero]
  refine ⟨hexp, hstab, ?_⟩
  rw [hexp, hstab]
  intro h
  injection h with h1 h2
  injection h1 with h3 h4
  rw [show (1:ℝ) = Real.exp 0 from Real.exp_zero.symm] at h3
  have := Real.exp_eq_exp.mp h3
  norm_num at this

/-- Modelled from the spec: the effect of `rand`'s `choose_multiple` RNG
draw — "uniform random choice when the cap is exceeded", without
replacement — represented as a uniformly random permutation of the neighbor
positions; the selected positions are the first `k` in permuted order. -/
def selPositions (n k : ℕ) (p : Equiv.Perm (Fin n)) : List (Fin n) :=
  ((List.finRange n).map p).take k

/-- The sample of `choose_multiple(rng, k)` on the edge list under the
permutation model: the edges at the selected positions. -/
def chooseMultiple (edges : List ℕ) (k : ℕ) (p : Equiv.Perm (Fin edges.length)) :
    List ℕ :=
  (selPositions edges.length k p).map (fun i => edges.get i)

/-- The set of selected positions. -/
def selFinset (n k : ℕ) (p : Equiv.Perm (Fin n)) : Finset (Fin n) :=
  (selPositions n k p).toFinset

/-- Embeds the neighbor selection of `reconstruct_node_embedding` in
`src/algos/ep/model.rs` lines 297-312: when
`edges.len() <= max_nodes.unwrap_or(edges.len())` all edges are used (with no
cap the `unwrap_or` makes the test trivially true), otherwise
`edges.choose_multiple(rng, max_nodes.unwrap())`. -/
def modelSelectNeighbors (edges : List ℕ) (maxNodes : Option ℕ)
    (p : Equiv.Perm (Fin edges.length)) : List ℕ :=
  match maxNodes with
  | none => edges
  | some m => if edges.length ≤ m then edges else chooseMultiple edges m p

/-- Embeds the neighbor selection of `reconstruct_node_embedding` in
`src/algos/ep.rs` lines 259-264:
`edges.iter().take(max_nodes.unwrap_or(edges.len()))` — the first `max_nodes`
edges in adjacency order, with no randomness. -/
def epSelectNeighbors (edges : List ℕ) (maxNodes : Option ℕ) : List ℕ :=
  edges.take (maxNodes.getD edges.length)

/-- Counterexample to claim C8 as stated: the training-loop reconstruction of
`src/algos/ep.rs` (one of the claim's cited code sites) down-samples three
neighbors to the fixed prefix `[10, 20]` — the neighbor at position 2 can
never be selected, so the neighbor subsets of size 2 are not equally likely
(the choice is not uniform, and not random at all). -/
theorem C8_counterexample :
    epSelectNeighbors [10, 20, 30] (some 2) = [10, 20]
    ∧ 30 ∉ epSelectNeighbors [10, 20, 30] (some 2) := by
  constructor
  · rfl
  · decide

/-- The selected positions are pairwise distinct. -/
theorem selPositions_nodup (n k : ℕ) (p : Equiv.Perm (Fin n)) :
    (selPositions n k p).Nodup :=
  (List.take_sublist k _).nodup ((List.nodup_finRange n).map p.injective)

/-- The finset of a mapped list is the image of its finset. -/
theorem list_toFinset_map {α β : Type} [DecidableEq α] [DecidableEq β]
    (l : List α) (f : α → β) : (l.map f).toFinset = l.toFinset.image f := by
  induction l with
  | nil => rfl
  | cons a l ih => simp [ih]

/-- Composing the random permutation with a fixed one maps the selected
position set through it. -/
theorem selFinset_mul (n k : ℕ) (tau p : Equiv.Perm (Fin n)) :
    selFinset n k (tau * p) = Finset.image tau (selFinset n k p) := by
  unfold selFinset selPositions
  have h1 : (List.finRange n).map (⇑(tau * p)) = ((List.finRange n).map p).map tau := by
    rw [List.map_map]
    rfl
  rw [h1, ← List.map_take, list_toFinset_map]

/-- Any two equally-sized position subsets are selected by the same number of
permutations: under a uniformly random permutation every subset of a given
size is equally likely. -/
theorem selFinset_count_eq (n k : ℕ) (S T : Finset (Fin n))
    (hS : S.card = k) (hT : T.card = k) :
    (Finset.univ.filter (fun p : Equiv.Perm (Fin n) => selFinset n k p = S)).card
      = (Finset.univ.filter (fun p : Equiv.Perm (Fin n) => selFinset n k p = T)).card := by
  classical
  have hST : S.card = T.card := hS.trans hT.symm
  have heS : Fintype.card {x : Fin n // x ∈ S} = Fintype.card {x : Fin n // x ∈ T} := by
    rw [Fintype.card_coe, Fintype.card_coe, hST]
  have heC : Fintype.card {x : Fin n // ¬ x ∈ S} = Fintype.card {x : Fin n // ¬ x ∈ T} := by
    rw [Fintype.card_subtype_compl, Fintype.card_subtype_compl, heS]
  let eS : {x : Fin n // x ∈ S} ≃ {x : Fin n // x ∈ T} := Fintype.equivOfCardEq heS
  let eC : {x : Fin n // ¬ x ∈ S} ≃ {x : Fin n // ¬ x ∈ T} := Fintype.equivOfCardEq heC
  let tau : Equiv.Perm (Fin n) := Equiv.subtypeCongr eS eC
  have htau_pos : ∀ y (hy : y ∈ S), tau y = ↑(eS ⟨y, hy⟩) := by
    intro y hy
    show Equiv.subtypeCongr eS eC y = _
    unfold Equiv.subtypeCongr
    rw [Equiv.trans_apply, Equiv.trans_apply,
      Equiv.sumCompl_apply_symm_of_pos _ _ hy]
    rfl
  have htau_neg : ∀ y (hy : ¬ y ∈ S), tau y = ↑(eC ⟨y, hy⟩) := by
    intro y hy
    show Equiv.subtypeCongr eS eC y = _
    unfold Equiv.subtypeCongr
    rw [Equiv.trans_apply, Equiv.trans_apply,
      Equiv.sumCompl_apply_symm_of_neg _ _ hy]
    rfl
  have himg : Finset.image tau S = T := by
    ext x
    simp only [Finset.mem_image]
    constructor
    · rintro ⟨y, hy, rfl⟩
      rw [htau_pos y hy]
      exact (eS ⟨y, hy⟩).2
    · intro hx
      refine ⟨tau.symm x, ?_, tau.apply_symm_apply x⟩
      by_contra hyn
      have h2 := htau_neg (tau.symm x) hyn
      rw [tau.apply_symm_apply] at h2
      exact (eC ⟨tau.symm x, hyn⟩).2 (h2 ▸ hx)
  have himg2 : Finset.image (⇑tau⁻¹) T = S := by
    rw [← himg, Finset.image_image]
    have hcomp : ⇑tau⁻¹ ∘ ⇑tau = id := by
      funext z
      simp
    rw [hcomp, Finset.image_id]
  refine Finset.card_bij' (fun p _ => tau * p) (fun p _ => tau⁻¹ * p) ?_ ?_ ?_ ?_
  · intro p hp
    rw [Finset.mem_filter] at hp ⊢
    refine ⟨Finset.mem_univ _, ?_⟩
    rw [selFinset_mul, hp.2, himg]
  · intro p hp
    rw [Finset.mem_filter] at hp ⊢
    refine ⟨Finset.mem_univ _, ?_⟩
    rw [selFinset_mul, hp.2, himg2]
  · intro p _
    show tau⁻¹ * (tau * p) = p
    rw [inv_mul_cancel_left]
  · intro p _
    show tau * (tau⁻¹ * p) = p
    rw [mul_inv_cancel_left]

/-- Claim C8 (amended): for the model-strategy reconstruction
(`src/algos/ep/model.rs`), when the neighbor count is within the cap (or no
cap is set) all neighbors are used, and when the count exceeds the cap the
down-sample keeps exactly `max_neighbor_nodes` neighbors at pairwise distinct
positions (no neighbor used twice), drawn — under the spec-modelled uniform
permutation of positions — so that any two equally-sized position subsets are
selected by equally many permutations (every subset of that size equally
likely).  The training-loop reconstruction of `src/algos/ep.rs` instead keeps
the first `max_neighbor_nodes` neighbors in adjacency order (a deterministic
prefix, not a uniform sample); within the cap it also uses all neighbors. -/
theorem C8_neighbor_sampling :
    (∀ (edges : List ℕ) (m : ℕ) (p : Equiv.Perm (Fin edges.length)),
        edges.length ≤ m → modelSelectNeighbors edges (some m) p = edges)
    ∧ (∀ (edges : List ℕ) (p : Equiv.Perm (Fin edges.length)),
        modelSelectNeighbors edges none p = edges)
    ∧ (∀ (edges : List ℕ) (m : ℕ), edges.length ≤ m →
        epSelectNeighbors edges (some m) = edges)
    ∧ (∀ (edges : List ℕ) (m : ℕ) (p : Equiv.Perm (Fin edges.length)),
        m < edges.length →
        (modelSelectNeighbors edges (some m) p).length = m
          ∧ modelSelectNeighbors edges (some m) p
              = (selPositions edges.length m p).map (fun i => edges.get i)
          ∧ (selPositions edges.length m p).Nodup)
    ∧ (∀ (n k : ℕ) (S T : Finset (Fin n)), S.card = k → T.card = k →
        (Finset.univ.filter (fun p : Equiv.Perm (Fin n) => selFinset n k p = S)).card
          = (Finset.univ.filter (fun p : Equiv.Perm (Fin n) => selFinset n k p = T)).card)
    ∧ (∀ (edges : List ℕ) (m : ℕ), epSelectNeighbors edges (some m) = edges.take m) := by
  refine ⟨?_, ?_, ?_, ?_, selFinset_count_eq, fun edges m => rfl⟩
  · intro edges m p h
    simp [modelSelectNeighbors, h]
  · intro edges p
    rfl
  · intro edges m h
    exact List.take_of_length_le h
  · intro edges m p h
    have hsel : modelSelectNeighbors edges (some m) p = chooseMultiple edges m p := by
      simp [modelSelectNeighbors, Nat.not_le.mpr h]
    refine ⟨?_, hsel, selPositions_nodup edges.length m p⟩
    rw [hsel]
    unfold chooseMultiple selPositions
    rw [List.length_map, List.length_take, List.length_map, List.length_finRange]
    exact Nat.min_eq_left (Nat.le_of_lt h)

/-- Witness for C8 (amended): with three neighbors and cap 2, the identity
permutation selects exactly the 2 neighbors `[10, 20]`; with cap 5 all three
are used; selecting position set `{0}` and position set `{1}` out of two
positions are equally frequent over all permutations. -/
theorem C8_neighbor_sampling_witness :
    (modelSelectNeighbors [10, 20, 30] (some 5) 1 = [10, 20, 30])
    ∧ (modelSelectNeighbors [10, 20, 30] (some 2) 1).length = 2
    ∧ (Finset.univ.filter
        (fun p : Equiv.Perm (Fin 2) => selFinset 2 1 p = {0})).card
      = (Finset.univ.filter
        (fun p : Equiv.Perm (Fin 2) => selFinset 2 1 p = {1})).card := by
  refine ⟨?_, ?_, ?_⟩
  · exact C8_neighbor_sampling.1 [10, 20, 30] 5 1 (by norm_num)
  · exact (C8_neighbor_sampling.2.2.2.1 [10, 20, 30] 2 1 (by norm_num)).1
  · exact C8_neighbor_sampling.2.2.2.2.1 2 1 {0} {1} (by decide) (by decide)

end Cloverleaf
